import Mathlib

/-!
Shallow embedding of the query-filter core of this repository
(`QueriesFilter.filter`): a comma-separated boolean term query is resolved
against an external inverted index (key → set of record identifiers) and
combined into a keep/drop decision applied to the record query.

Modelling choices:
- Python strings are modelled as `List Char` (`Str`).
- The external index store (a Redis connection in the source) is modelled as
  an association list from keys to identifier sets (`Store`).
  `smembers` returns the set stored under one exact key, the empty set when
  the key is absent.  `keysMatching` models `r.keys(pat + "*")`: all stored
  keys of which the given string is an initial segment.  `sunionAll` models
  `r.sunion(*keys)`; the source only calls it with a non-empty key list.
- The Django queryset `qs` is abstracted away: the outcome of the filter is
  recorded as a `FilterOutcome` (pass through unchanged, keep only the given
  ids, or drop the given ids).  A run that raises a Python exception is
  modelled as `none`: `set.union(*[])` (line 95 of the source) raises
  `TypeError` when `ids_exclude` is empty, because the unbound method
  `set.union` needs at least one argument.
-/

abbrev Str := List Char

abbrev Store := List (Str × Finset ℕ)

/-- Python `s.strip()`: remove leading and trailing whitespace. -/
def strip (s : Str) : Str :=
  ((s.dropWhile Char.isWhitespace).reverse.dropWhile Char.isWhitespace).reverse

/-- Python `s.startswith(c)` for a single-character argument. -/
def startsWith (c : Char) : Str → Bool
  | [] => false
  | d :: _ => d = c

/-- Python `s.split(',')`.  In particular `[] ↦ [[]]`, as `''.split(',') == ['']`. -/
def splitOnComma : Str → List Str
  | [] => [[]]
  | c :: rest =>
    if c = ',' then [] :: splitOnComma rest
    else
      match splitOnComma rest with
      | [] => [[c]]
      | t :: ts => (c :: t) :: ts

/-- The index key built for a word: `f"{settings.QUERYINDEX_PREFIX}_{word}"`,
with `ns` standing for the configured namespace string. -/
def mkKey (ns w : Str) : Str := ns ++ '_' :: w

/-- `r.smembers(key)`: the identifier set stored under one exact key, empty if
the key is absent (Redis semantics). -/
def smembers (r : Store) (k : Str) : Finset ℕ := (List.lookup k r).getD ∅

/-- `r.keys(pat + "*")`: every stored key beginning with `pat`. -/
def keysMatching (r : Store) (p : Str) : List Str :=
  (r.filter (fun e => p.isPrefixOf e.1)).map (fun e => e.1)

/-- `r.sunion(*keys)`: union of the sets stored under the given keys. -/
def sunionAll (r : Store) (ks : List Str) : Finset ℕ :=
  ks.foldr (fun k acc => smembers r k ∪ acc) ∅

/-- The token loop of `QueriesFilter.filter` (source lines 48–82): walk the
comma-split tokens and build `ids_include` and `ids_exclude`, in token order.
A `!`-led token does one exact `smembers` lookup and always appends to the
inclusion list; a `-`-led token prefix-scans and appends the union to the
exclusion list unless no key matched (`continue`); any other token
prefix-scans and appends the union to the inclusion list unless no key
matched.  Note the source's `word.replace('!', '')` / `word.replace('-', '')`
remove every occurrence of the character, hence `List.filter`. -/
def resolve (ns : Str) (r : Store) : List Str → List (Finset ℕ) × List (Finset ℕ)
  | [] => ([], [])
  | word :: rest =>
    let prev := resolve ns r rest
    if startsWith '!' word then
      let w := strip (word.filter (fun c => c ≠ '!'))
      (smembers r (mkKey ns w) :: prev.1, prev.2)
    else if startsWith '-' word then
      let w := strip (word.filter (fun c => c ≠ '-'))
      let ks := keysMatching r (mkKey ns w)
      if ks = [] then prev
      else (prev.1, sunionAll r ks :: prev.2)
    else
      let w := strip word
      let ks := keysMatching r (mkKey ns w)
      if ks = [] then prev
      else (sunionAll r ks :: prev.1, prev.2)

/-- What `QueriesFilter.filter` does to the queryset. -/
inductive FilterOutcome
  | pass
  | keep (ids : Finset ℕ)
  | drop (ids : Finset ℕ)
deriving DecidableEq

/-- The combination step (source lines 84–97).  `set.intersection(*l)` and
`set.union(*l)` on a non-empty list fold from the first element;
`set.union(*[])` raises `TypeError`, modelled as `none`. -/
def combine (incs excs : List (Finset ℕ)) : Option FilterOutcome :=
  match incs with
  | g :: gs =>
    match excs with
    | [] => some (.keep (gs.foldl (fun a b => a ∩ b) g))
    | b :: bs =>
      some (.keep ((gs.foldl (fun a b => a ∩ b) g) \ (bs.foldl (fun a b => a ∪ b) b)))
  | [] =>
    match excs with
    | [] => none
    | b :: bs => some (.drop (bs.foldl (fun a b => a ∪ b) b))

/-- `QueriesFilter.filter(qs, value)` (source lines 41–97).  An empty `value`
is falsy in Python, so the filter returns `qs` untouched without consulting
the store. -/
def queriesFilter (ns : Str) (r : Store) (value : Str) : Option FilterOutcome :=
  if value = [] then some .pass
  else
    let p := resolve ns r (splitOnComma value)
    combine p.1 p.2

/-- `value` may also be `None` in Python (absent query parameter); `None` is
falsy, taking the same early return as the empty string. -/
def queriesFilterOpt (ns : Str) (r : Store) : Option Str → Option FilterOutcome
  | none => some .pass
  | some v => queriesFilter ns r v

/-! Helper notions used by the theorems below.  `foldl1` is how Python's
`set.intersection(*l)` / `set.union(*l)` combine a non-empty list: fold from
the first element.  `tokenContrib` isolates what one token of the loop adds
to the two lists, so that the loop can be re-expressed as two `filterMap`s. -/

def foldl1 (op : Finset ℕ → Finset ℕ → Finset ℕ) : List (Finset ℕ) → Finset ℕ
  | [] => ∅
  | s :: rest => rest.foldl op s

def interList : List (Finset ℕ) → Finset ℕ := foldl1 (fun a b => a ∩ b)

def unionList : List (Finset ℕ) → Finset ℕ := foldl1 (fun a b => a ∪ b)

/-- The contribution of one token of the loop: an inclusion set, an exclusion
set, or nothing (the `continue` branches). -/
inductive Contrib
  | inc (s : Finset ℕ)
  | exc (s : Finset ℕ)
  | skip
deriving DecidableEq

def tokenContrib (ns : Str) (r : Store) (word : Str) : Contrib :=
  if startsWith '!' word then
    Contrib.inc (smembers r (mkKey ns (strip (word.filter (fun c => c ≠ '!')))))
  else if startsWith '-' word then
    let ks := keysMatching r (mkKey ns (strip (word.filter (fun c => c ≠ '-'))))
    if ks = [] then Contrib.skip else Contrib.exc (sunionAll r ks)
  else
    let ks := keysMatching r (mkKey ns (strip word))
    if ks = [] then Contrib.skip else Contrib.inc (sunionAll r ks)

def incOf : Contrib → Option (Finset ℕ)
  | Contrib.inc s => some s
  | _ => none

def excOf : Contrib → Option (Finset ℕ)
  | Contrib.exc s => some s
  | _ => none

lemma resolve_eq_filterMap (ns : Str) (r : Store) (toks : List Str) :
    resolve ns r toks =
      (toks.filterMap (fun t => incOf (tokenContrib ns r t)),
       toks.filterMap (fun t => excOf (tokenContrib ns r t))) := by
  induction toks with
  | nil => rfl
  | cons w rest ih =>
    simp only [resolve, tokenContrib, List.filterMap_cons, ih]
    split
    · simp [incOf, excOf]
    · split
      · split
        · simp [incOf, excOf]
        · simp [incOf, excOf]
      · split
        · simp [incOf, excOf]
        · simp [incOf, excOf]

lemma foldl_eq_of_perm (op : Finset ℕ → Finset ℕ → Finset ℕ)
    (hc : ∀ a b, op a b = op b a)
    (ha : ∀ a b c, op (op a b) c = op a (op b c))
    {l1 l2 : List (Finset ℕ)} (p : List.Perm l1 l2) :
    ∀ b, l1.foldl op b = l2.foldl op b := by
  induction p with
  | nil => intro b; rfl
  | cons x _ ih => intro b; simpa using ih (op b x)
  | swap x y l =>
    intro b
    simp only [List.foldl_cons]
    rw [ha b y x, hc y x, ← ha b x y]
  | trans _ _ ih1 ih2 => intro b; exact (ih1 b).trans (ih2 b)

lemma foldl1_eq_of_perm (op : Finset ℕ → Finset ℕ → Finset ℕ)
    (hc : ∀ a b, op a b = op b a)
    (ha : ∀ a b c, op (op a b) c = op a (op b c))
    {l1 l2 : List (Finset ℕ)} (p : List.Perm l1 l2) :
    foldl1 op l1 = foldl1 op l2 := by
  induction p with
  | nil => rfl
  | cons x p ih =>
    simp only [foldl1]
    exact foldl_eq_of_perm op hc ha p x
  | swap x y l =>
    simp only [foldl1, List.foldl_cons]
    rw [hc y x]
  | trans _ _ ih1 ih2 => exact ih1.trans ih2

lemma combine_eq_of_perm {i1 i2 e1 e2 : List (Finset ℕ)}
    (hi : List.Perm i1 i2) (he : List.Perm e1 e2) :
    combine i1 e1 = combine i2 e2 := by
  have hinter := foldl1_eq_of_perm (fun a b => a ∩ b)
    (fun a b => Finset.inter_comm a b) (fun a b c => Finset.inter_assoc a b c) hi
  have hunion := foldl1_eq_of_perm (fun a b => a ∪ b)
    (fun a b => Finset.union_comm a b) (fun a b c => Finset.union_assoc a b c) he
  cases i1 with
  | nil =>
    have h2 : i2 = [] := hi.symm.eq_nil
    subst h2
    cases e1 with
    | nil =>
      have h4 : e2 = [] := he.symm.eq_nil
      subst h4; rfl
    | cons b bs =>
      cases e2 with
      | nil => exact absurd he.eq_nil (by simp)
      | cons b2 bs2 =>
        simp only [foldl1] at hunion
        simp only [combine, hunion]
  | cons g gs =>
    cases i2 with
    | nil => exact absurd hi.eq_nil (by simp)
    | cons g2 gs2 =>
      simp only [foldl1] at hinter
      cases e1 with
      | nil =>
        have h4 : e2 = [] := he.symm.eq_nil
        subst h4
        simp only [combine, hinter]
      | cons b bs =>
        cases e2 with
        | nil => exact absurd he.eq_nil (by simp)
        | cons b2 bs2 =>
          simp only [foldl1] at hunion
          simp only [combine, hinter, hunion]

lemma splitOnComma_ne_nil (v : Str) : splitOnComma v ≠ [] := by
  cases v with
  | nil => simp [splitOnComma]
  | cons c rest =>
    simp only [splitOnComma]
    by_cases hc : c = ','
    · simp [hc]
    · simp only [if_neg hc]
      cases h : splitOnComma rest <;> simp

lemma splitOnComma_eq_singleton_nil_iff (v : Str) :
    splitOnComma v = [[]] ↔ v = [] := by
  constructor
  · intro h
    cases v with
    | nil => rfl
    | cons c rest =>
      exfalso
      simp only [splitOnComma] at h
      by_cases hc : c = ','
      · rw [if_pos hc] at h
        have ht : splitOnComma rest = [] := by
          have := congrArg List.tail h
          simpa using this
        exact splitOnComma_ne_nil rest ht
      · rw [if_neg hc] at h
        cases hs : splitOnComma rest with
        | nil => exact splitOnComma_ne_nil rest hs
        | cons t ts =>
          rw [hs] at h
          simp at h
  · intro h; subst h; rfl

lemma foldl_inter_subset_init (l : List (Finset ℕ)) (b : Finset ℕ) :
    l.foldl (fun a b => a ∩ b) b ⊆ b := by
  induction l generalizing b with
  | nil => simp [List.foldl]
  | cons x xs ih =>
    simp only [List.foldl_cons]
    exact (ih (b ∩ x)).trans Finset.inter_subset_left

lemma foldl_inter_subset_mem {l : List (Finset ℕ)} {s : Finset ℕ} (h : s ∈ l)
    (b : Finset ℕ) : l.foldl (fun a b => a ∩ b) b ⊆ s := by
  induction l generalizing b with
  | nil => cases h
  | cons x xs ih =>
    simp only [List.foldl_cons]
    rcases List.mem_cons.mp h with rfl | h2
    · exact (foldl_inter_subset_init xs (b ∩ s)).trans Finset.inter_subset_right
    · exact ih h2 (b ∩ x)

lemma interList_subset_of_mem {l : List (Finset ℕ)} {s : Finset ℕ} (h : s ∈ l) :
    interList l ⊆ s := by
  cases l with
  | nil => cases h
  | cons x xs =>
    simp only [interList, foldl1]
    rcases List.mem_cons.mp h with rfl | h2
    · exact foldl_inter_subset_init xs s
    · exact foldl_inter_subset_mem h2 x

lemma startsWith_eq_false_of_whitespace {c0 : Char} {tok : Str}
    (hws : tok.all Char.isWhitespace = true) (hc0 : c0.isWhitespace = false) :
    startsWith c0 tok = false := by
  cases tok with
  | nil => rfl
  | cons c cs =>
    simp only [startsWith, decide_eq_false_iff_not]
    intro h
    have hc : c.isWhitespace = true := by
      simp only [List.all_cons, Bool.and_eq_true] at hws
      exact hws.1
    rw [h, hc0] at hc
    cases hc

lemma strip_eq_nil_of_all_whitespace {tok : Str}
    (hws : tok.all Char.isWhitespace = true) : strip tok = [] := by
  have h1 : tok.dropWhile Char.isWhitespace = [] := by
    rw [List.dropWhile_eq_nil_iff]
    intro a ha
    simp only [List.all_eq_true] at hws
    exact hws a ha
  simp [strip, h1]

lemma mem_resolve_incs_of_bang (ns : Str) (r : Store) (toks : List Str)
    (tok : Str) (ht : tok ∈ toks) (hb : startsWith '!' tok = true) :
    smembers r (mkKey ns (strip (tok.filter (fun c => c ≠ '!')))) ∈
      (resolve ns r toks).1 := by
  rw [resolve_eq_filterMap]
  refine List.mem_filterMap.mpr ⟨tok, ht, ?_⟩
  simp [tokenContrib, hb, incOf]

/-- C1: the claim says that a non-empty query whose terms yield empty
inclusion and exclusion lists does not fail and passes the query through
unrestricted.  The code violates this: with namespace `n`, an empty index
store and query `-z`, the one token is a prefix-exclusion matching zero keys
(`continue`), both lists end empty, and the code then evaluates
`set.union(*ids_exclude)` with zero arguments, which raises `TypeError`
(modelled as `none`).  This theorem evaluates the code at that failing
input. -/
theorem c1_zero_union_type_error :
    resolve ['n'] [] (splitOnComma ['-', 'z']) = ([], []) ∧
    queriesFilter ['n'] [] ['-', 'z'] = none := by decide

/-- C2: for a non-empty query, if the resolved inclusion list `I` is
non-empty the outcome is `keep (⋂ I \ ⋃ E)` (the subtraction is the identity
when `E` is empty), and if `I` is empty while `E` is non-empty the outcome is
`drop (⋃ E)`. -/
theorem c2_decision_rule (ns : Str) (r : Store) (value : Str) (hv : value ≠ []) :
    ((resolve ns r (splitOnComma value)).1 ≠ [] →
      queriesFilter ns r value =
        some (FilterOutcome.keep
          (interList (resolve ns r (splitOnComma value)).1 \
            unionList (resolve ns r (splitOnComma value)).2))) ∧
    ((resolve ns r (splitOnComma value)).1 = [] →
      (resolve ns r (splitOnComma value)).2 ≠ [] →
      queriesFilter ns r value =
        some (FilterOutcome.drop
          (unionList (resolve ns r (splitOnComma value)).2))) := by
  simp only [queriesFilter, if_neg hv]
  generalize resolve ns r (splitOnComma value) = p
  obtain ⟨I, E⟩ := p
  constructor
  · intro hI
    cases I with
    | nil => exact absurd rfl hI
    | cons g gs =>
      cases E with
      | nil => simp [combine, interList, unionList, foldl1]
      | cons b bs => simp [combine, interList, unionList, foldl1]
  · intro hI hE
    subst hI
    cases E with
    | nil => exact absurd rfl hE
    | cons b bs => simp [combine, unionList, foldl1]

/-- C2 witness: query `a,-b` against `n_a ↦ {1,2}`, `n_b ↦ {2,3}` keeps
`{1,2} \ {2,3} = {1}`; query `-b` against `n_b ↦ {2,3}` drops `{2,3}`. -/
theorem c2_decision_rule_witness :
    queriesFilter ['n'] [(['n', '_', 'a'], ({1, 2} : Finset ℕ)),
        (['n', '_', 'b'], ({2, 3} : Finset ℕ))] ['a', ',', '-', 'b'] =
      some (FilterOutcome.keep {1}) ∧
    queriesFilter ['n'] [(['n', '_', 'b'], ({2, 3} : Finset ℕ))] ['-', 'b'] =
      some (FilterOutcome.drop {2, 3}) := by
  constructor
  · have h := (c2_decision_rule ['n'] [(['n', '_', 'a'], ({1, 2} : Finset ℕ)),
        (['n', '_', 'b'], ({2, 3} : Finset ℕ))] ['a', ',', '-', 'b']
        (by decide)).1 (by decide)
    rw [h]; decide
  · have h := (c2_decision_rule ['n'] [(['n', '_', 'b'], ({2, 3} : Finset ℕ))]
        ['-', 'b'] (by decide)).2 (by decide) (by decide)
    rw [h]; decide

/-- C9: an absent (`None`) or empty query string value takes the early
return `if not value: return qs`: the outcome is an unrestricted
pass-through for every index store state (the store argument is untouched,
so no store call is made). -/
theorem c9_empty_query_pass (ns : Str) (r : Store) :
    queriesFilterOpt ns r none = some FilterOutcome.pass ∧
    queriesFilter ns r [] = some FilterOutcome.pass :=
  ⟨rfl, rfl⟩

/-- C10: a token classified as exact-include (`!`-led) always appends its
`smembers` result to the inclusion list, even when that is the empty set
(absent key).  The inclusion list is then non-empty and its intersection is
empty, so the whole query keeps the empty identifier set, regardless of all
other terms. -/
theorem c10_absent_exact_key_empties (ns : Str) (r : Store) (value : Str)
    (h : ∃ tok ∈ splitOnComma value, startsWith '!' tok = true ∧
        smembers r (mkKey ns (strip (tok.filter (fun c => c ≠ '!')))) = ∅) :
    queriesFilter ns r value = some (FilterOutcome.keep ∅) := by
  obtain ⟨tok, htok, hb, habs⟩ := h
  have hv : value ≠ [] := by
    intro hv
    subst hv
    simp only [splitOnComma, List.mem_singleton] at htok
    subst htok
    simp [startsWith] at hb
  have hmem : (∅ : Finset ℕ) ∈ (resolve ns r (splitOnComma value)).1 := by
    have h2 := mem_resolve_incs_of_bang ns r (splitOnComma value) tok htok hb
    rwa [habs] at h2
  simp only [queriesFilter, if_neg hv]
  generalize hp : resolve ns r (splitOnComma value) = p at hmem
  obtain ⟨I, E⟩ := p
  cases I with
  | nil => cases hmem
  | cons g gs =>
    have hzero : gs.foldl (fun a b => a ∩ b) g = ∅ :=
      Finset.subset_empty.mp
        (by simpa [interList, foldl1] using interList_subset_of_mem hmem)
    cases E with
    | nil => simp [combine, hzero]
    | cons b bs => simp [combine, hzero]

/-- C10 witness: query `!a,b` with an empty store keeps the empty set. -/
theorem c10_absent_exact_key_empties_witness :
    queriesFilter ['n'] [] ['!', 'a', ',', 'b'] = some (FilterOutcome.keep ∅) :=
  c10_absent_exact_key_empties ['n'] [] ['!', 'a', ',', 'b'] (by decide)

/-- C3 counterexample: the claim says an empty token matches no index keys
and adds nothing to either list, regardless of the store.  In the code an
empty token reaches the default branch and prefix-scans `ns_` followed by
anything, i.e. every key of the namespace: with store `n_a ↦ {1}` the single
empty token adds `{1}` to the inclusion list. -/
theorem c3_counterexample :
    (resolve ['n'] [(['n', '_', 'a'], ({1} : Finset ℕ))] [[]]).1 = [{1}] ∧
    (resolve ['n'] [(['n', '_', 'a'], ({1} : Finset ℕ))] [[]]).1 ≠ [] := by
  decide

/-- C3 amended: a token that is empty after trimming (all whitespace) is
classified as a default prefix-include and scans with the empty word, so it
matches every key of the namespace; when the namespace holds at least one
key it adds the union of all stored sets to the inclusion list (only an
empty namespace makes it contribute nothing). -/
theorem c3_empty_token_scans_namespace (ns : Str) (r : Store) (tok : Str)
    (rest : List Str) (hws : tok.all Char.isWhitespace = true)
    (hk : keysMatching r (ns ++ ['_']) ≠ []) :
    resolve ns r (tok :: rest) =
      (sunionAll r (keysMatching r (ns ++ ['_'])) :: (resolve ns r rest).1,
       (resolve ns r rest).2) := by
  have h1 : startsWith '!' tok = false :=
    startsWith_eq_false_of_whitespace hws (by decide)
  have h2 : startsWith '-' tok = false :=
    startsWith_eq_false_of_whitespace hws (by decide)
  have h3 : strip tok = [] := strip_eq_nil_of_all_whitespace hws
  have hkey : mkKey ns [] = ns ++ ['_'] := rfl
  simp [resolve, h1, h2, h3, hkey, hk]

/-- C3 witness: a lone space token against `n_a ↦ {1}` contributes `{1}`. -/
theorem c3_empty_token_scans_namespace_witness :
    resolve ['n'] [(['n', '_', 'a'], ({1} : Finset ℕ))] [[' ']] = ([{1}], []) := by
  have h := c3_empty_token_scans_namespace ['n']
    [(['n', '_', 'a'], ({1} : Finset ℕ))] [' '] [] (by decide) (by decide)
  rw [h]; decide

/-- C4 counterexample: the claim says a token is trimmed before its leading
character is inspected, so ` !a` would be an exact-include of `a`.  In the
code `startswith` runs on the untrimmed token: ` !a` takes the default
branch, prefix-scans `n_!a` (no match, `continue`), both lists end empty and
the evaluation raises (`none`) — although `n_a ↦ {1}` is stored, which the
claimed classification would have kept. -/
theorem c4_counterexample :
    queriesFilter ['n'] [(['n', '_', 'a'], ({1} : Finset ℕ))]
        [' ', '!', 'a'] = none ∧
    smembers [(['n', '_', 'a'], ({1} : Finset ℕ))] (mkKey ['n'] ['a']) = {1} := by
  decide

/-- C4 amended: classification inspects the raw token's first character, so
a token beginning with a whitespace character always takes the default
prefix-include branch (trimming happens only afterwards), even when its
first non-whitespace character is `!` or `-`. -/
theorem c4_no_trim_before_classify (ns : Str) (r : Store) (c : Char)
    (cs : Str) (rest : List Str) (hc : c.isWhitespace = true) :
    resolve ns r ((c :: cs) :: rest) =
      (if keysMatching r (mkKey ns (strip (c :: cs))) = [] then
        resolve ns r rest
       else
        (sunionAll r (keysMatching r (mkKey ns (strip (c :: cs)))) ::
            (resolve ns r rest).1,
         (resolve ns r rest).2)) := by
  have h1 : startsWith '!' (c :: cs) = false := by
    simp only [startsWith, decide_eq_false_iff_not]
    intro h; rw [h] at hc; exact absurd hc (by decide)
  have h2 : startsWith '-' (c :: cs) = false := by
    simp only [startsWith, decide_eq_false_iff_not]
    intro h; rw [h] at hc; exact absurd hc (by decide)
  simp [resolve, h1, h2]

/-- C4 witness: the token ` !a` is resolved as a prefix-include of `!a`,
which matches no key of this store, so it is dropped. -/
theorem c4_no_trim_before_classify_witness :
    resolve ['n'] [(['n', '_', 'a'], ({1} : Finset ℕ))] [[' ', '!', 'a']] =
      ([], []) := by
  have h := c4_no_trim_before_classify ['n']
    [(['n', '_', 'a'], ({1} : Finset ℕ))] ' ' ['!', 'a'] [] (by decide)
  rw [h]; decide

/-- C5 counterexample: the claim says only the leading prefix character is
removed, so `-foo-bar` would exclude by the word `foo-bar`.  The code's
`word.replace('-', '')` removes every `-`: with keys `n_ab ↦ {1}` and
`n_a-b ↦ {2}`, the token `-a-b` scans for the word `ab` and excludes `{1}`,
not `{2}`. -/
theorem c5_counterexample :
    resolve ['n'] [(['n', '_', 'a', 'b'], ({1} : Finset ℕ)),
        (['n', '_', 'a', '-', 'b'], ({2} : Finset ℕ))] [['-', 'a', '-', 'b']] =
      ([], [{1}]) ∧
    resolve ['n'] [(['n', '_', 'a', 'b'], ({1} : Finset ℕ)),
        (['n', '_', 'a', '-', 'b'], ({2} : Finset ℕ))] [['-', 'a', '-', 'b']] ≠
      ([], [{2}]) := by
  decide

/-- C5 amended: for a `!`-led (resp. `-`-led) token, every occurrence of the
prefix character in the token is removed before trimming, interior
occurrences included, and the remaining word is looked up (resp.
prefix-scanned). -/
theorem c5_replace_removes_all (ns : Str) (r : Store) (cs : Str)
    (rest : List Str) :
    resolve ns r (('!' :: cs) :: rest) =
      (smembers r (mkKey ns (strip (cs.filter (fun c => c ≠ '!')))) ::
         (resolve ns r rest).1,
       (resolve ns r rest).2) ∧
    resolve ns r (('-' :: cs) :: rest) =
      (if keysMatching r (mkKey ns (strip (cs.filter (fun c => c ≠ '-')))) = []
       then resolve ns r rest
       else ((resolve ns r rest).1,
             sunionAll r (keysMatching r
                 (mkKey ns (strip (cs.filter (fun c => c ≠ '-'))))) ::
               (resolve ns r rest).2)) :=
  ⟨rfl, rfl⟩

/-- C6: a non-`!` token whose prefix scan matches zero keys is skipped
(`continue`): wherever it occurs among the tokens, both resulting lists are
exactly those of the token list without it, so it can neither collapse an
intersection nor change the exclusion union. -/
theorem c6_zero_key_term_omitted (ns : Str) (r : Store) (tok : Str)
    (pre post : List Str)
    (h1 : startsWith '!' tok = false)
    (h2 : keysMatching r (mkKey ns
        (if startsWith '-' tok = true then strip (tok.filter (fun c => c ≠ '-'))
         else strip tok)) = []) :
    resolve ns r (pre ++ tok :: post) = resolve ns r (pre ++ post) := by
  have hcontrib : tokenContrib ns r tok = Contrib.skip := by
    by_cases hd : startsWith '-' tok = true
    · rw [if_pos hd] at h2
      simp only [ne_eq, decide_not] at h2
      simp [tokenContrib, h1, hd, h2]
    · rw [if_neg hd] at h2
      simp [tokenContrib, h1, hd, h2]
  rw [resolve_eq_filterMap, resolve_eq_filterMap]
  simp [List.filterMap_append, List.filterMap_cons, hcontrib, incOf, excOf]

/-- C6 witness: dropping the no-match token `-z` from `a,-z,b` leaves the
resolution of `a,b` unchanged. -/
theorem c6_zero_key_term_omitted_witness :
    resolve ['n'] [(['n', '_', 'a'], ({1} : Finset ℕ))]
        [['a'], ['-', 'z'], ['b']] =
      resolve ['n'] [(['n', '_', 'a'], ({1} : Finset ℕ))] [['a'], ['b']] :=
  c6_zero_key_term_omitted ['n'] [(['n', '_', 'a'], ({1} : Finset ℕ))]
    ['-', 'z'] [['a']] [['b']] (by decide) (by decide)

/-- C7: the outcome of the filter depends only on the multiset of
comma-separated tokens: two query strings whose token lists are permutations
of one another produce the same outcome, for every namespace and store. -/
theorem c7_perm_invariant (ns : Str) (r : Store) (v1 v2 : Str)
    (h : List.Perm (splitOnComma v1) (splitOnComma v2)) :
    queriesFilter ns r v1 = queriesFilter ns r v2 := by
  by_cases h1 : v1 = []
  · subst h1
    have h2 : v2 = [] := by
      rw [← splitOnComma_eq_singleton_nil_iff]
      exact List.perm_singleton.mp h.symm
    rw [h2]
  · have h2 : v2 ≠ [] := by
      intro hv
      subst hv
      exact h1 ((splitOnComma_eq_singleton_nil_iff v1).mp
        (List.perm_singleton.mp h))
    simp only [queriesFilter, if_neg h1, if_neg h2]
    rw [resolve_eq_filterMap, resolve_eq_filterMap]
    exact combine_eq_of_perm (h.filterMap _) (h.filterMap _)

/-- C7 witness: `a,-b` and `-b,a` filter identically. -/
theorem c7_perm_invariant_witness :
    queriesFilter ['n'] [(['n', '_', 'a'], ({1} : Finset ℕ))]
        ['a', ',', '-', 'b'] =
      queriesFilter ['n'] [(['n', '_', 'a'], ({1} : Finset ℕ))]
        ['-', 'b', ',', 'a'] :=
  c7_perm_invariant ['n'] [(['n', '_', 'a'], ({1} : Finset ℕ))]
    ['a', ',', '-', 'b'] ['-', 'b', ',', 'a'] (by decide)

/-- C8: a `!`-led token contributes `smembers` of the single exact key built
from its word — never a prefix scan — and that contribution depends only on
the store's entry at that exact key: two stores agreeing there (e.g. one
holding identifiers only under a longer key sharing the same initial
segment) yield the same contribution. -/
theorem c8_exact_include_single_key (ns cs : Str) (r r2 : Store)
    (rest : List Str)
    (h : List.lookup (mkKey ns (strip (cs.filter (fun c => c ≠ '!')))) r =
         List.lookup (mkKey ns (strip (cs.filter (fun c => c ≠ '!')))) r2) :
    resolve ns r (('!' :: cs) :: rest) =
      (smembers r (mkKey ns (strip (cs.filter (fun c => c ≠ '!')))) ::
         (resolve ns r rest).1,
       (resolve ns r rest).2) ∧
    smembers r (mkKey ns (strip (cs.filter (fun c => c ≠ '!')))) =
      smembers r2 (mkKey ns (strip (cs.filter (fun c => c ≠ '!')))) := by
  refine ⟨rfl, ?_⟩
  unfold smembers
  rw [h]

/-- C8 witness: with `n_ab ↦ {5}` stored and nothing else, the exact term
`!a` reads key `n_a` and sees the same (absent) entry as in the empty store:
the identifiers under the longer key `n_ab` are not included. -/
theorem c8_exact_include_single_key_witness :
    smembers [(['n', '_', 'a', 'b'], ({5} : Finset ℕ))]
        (mkKey ['n'] (strip (['a'].filter (fun c => c ≠ '!')))) =
      smembers [] (mkKey ['n'] (strip (['a'].filter (fun c => c ≠ '!')))) :=
  (c8_exact_include_single_key ['n'] ['a']
    [(['n', '_', 'a', 'b'], ({5} : Finset ℕ))] [] [] (by decide)).2

